import Mathlib

/-!
Verification of the tone-CSS extraction and injection pipeline of
`chinese/edit.py` (Chinese Support Redux).

The Python source is embedded shallowly: stylesheet text and generated
JavaScript are `List Char`, the regex `TONE_CSS_RULE` becomes an explicit
matcher, the two extraction/injection tiers become pure functions, and the
module-load version dispatch becomes a function from the parsed version
list to a strategy tag plus the number of startup warnings it emits.
-/

namespace ChineseEdit

/-- Seq of chars of a string literal, used to write concrete inputs. -/
def chars (s : String) : List Char := s.data

/-! ### Generic string helpers (mirroring the Python primitives used) -/

/-- Split a char list on a separator, mirroring Python `str.split(sep)` for a
one-character separator: `splitOn ';' "a;b" = ["a", "b"]`, and the empty
string yields `[""]`. -/
def splitOn (sep : Char) : List Char → List (List Char)
  | [] => [[]]
  | c :: cs =>
    if c = sep then [] :: splitOn sep cs
    else
      match splitOn sep cs with
      | [] => [[c]]
      | g :: gs => (c :: g) :: gs

/-- Split at the first occurrence of `sep`, mirroring Python
`s.split(sep, 1)` when it returns two pieces; `none` when `sep` is absent. -/
def splitFirst (sep : Char) : List Char → Option (List Char × List Char)
  | [] => none
  | c :: cs =>
    if c = sep then some ([], cs)
    else
      match splitFirst sep cs with
      | some (a, b) => some (c :: a, b)
      | none => none

/-- `dropPrefixQ p s = some r` iff `s = p ++ r`: the remainder of `s` after
the literal text `p`, used to model literal regex text and `startswith`. -/
def dropPrefixQ : List Char → List Char → Option (List Char)
  | [], s => some s
  | _ :: _, [] => none
  | p :: ps, c :: cs => if c = p then dropPrefixQ ps cs else none

/-- Python `pat in line` (substring containment). -/
def containsSub (pat : List Char) : List Char → Bool
  | [] => (dropPrefixQ pat []).isSome
  | c :: cs => (dropPrefixQ pat (c :: cs)).isSome || containsSub pat cs

/-- Python `line.startswith(pat)`. -/
def startsWithPat (pat s : List Char) : Bool := (dropPrefixQ pat s).isSome

/-- Python `c in part` for a single character. -/
def hasChar (c : Char) : List Char → Bool
  | [] => false
  | x :: xs => x = c || hasChar c xs

/-- The whitespace characters stripped by Python `str.strip()` (ASCII part;
other Unicode whitespace is not exercised by this module). -/
def pySpace (c : Char) : Bool :=
  c = ' ' || c = '\t' || c = '\n' || c = '\r' || c = '\x0b' || c = '\x0c'

/-- Python `str.strip()`. -/
def pyStrip (s : List Char) : List Char :=
  ((s.dropWhile pySpace).reverse.dropWhile pySpace).reverse

/-- Concatenated map over a list (used for the Python loops that append to
an accumulator). -/
def concatMap (f : α → List β) : List α → List β
  | [] => []
  | x :: xs => f x ++ concatMap f xs

/-- Count of positions at which `pat` occurs as a contiguous substring. -/
def countSub (pat : List Char) : List Char → Nat
  | [] => if (dropPrefixQ pat []).isSome then 1 else 0
  | c :: cs => (if (dropPrefixQ pat (c :: cs)).isSome then 1 else 0) + countSub pat cs

/-! ### The regex `TONE_CSS_RULE = re.compile("(\\.tone\\d) *\\{([^}]*)\\}")`

The pattern is: literal `.tone`, one digit, zero or more spaces, `{`, a run
of non-`}` characters (group 2), `}`.  Since ` *` is followed by `{` and
`[^}]*` is followed by `}`, backtracking cannot change what a match at a
given position looks like, so the matcher below is an exact model: the
spaces are exactly the maximal space run and the body runs to the first `}`.
`re.search` tries positions left to right, modelled by `toneRuleSearch`. -/

/-- The literal text `.tone` of the pattern (also the candidate marker). -/
def tonePat : List Char := ['.', 't', 'o', 'n', 'e']

/-- Match `TONE_CSS_RULE` anchored at the start of `s`; returns
`(group 1, group 2)`: the selector `.toneD` and the declaration body. -/
def matchToneRuleAt (s : List Char) : Option (List Char × List Char) :=
  match dropPrefixQ tonePat s with
  | none => none
  | some rest =>
    match rest with
    | [] => none
    | d :: rest1 =>
      if d.isDigit then
        match rest1.dropWhile (fun c => c = ' ') with
        | [] => none
        | b :: rest2 =>
          if b = '{' then
            match splitFirst '}' rest2 with
            | some (body, _) => some (tonePat ++ [d], body)
            | none => none
          else none
      else none

/-- `TONE_CSS_RULE.search(line)`: leftmost match of the pattern. -/
def toneRuleSearch : List Char → Option (List Char × List Char)
  | [] => none
  | c :: cs =>
    match matchToneRuleAt (c :: cs) with
    | some r => some r
    | none => toneRuleSearch cs

/-! ### Rule extraction, both tiers

`append_tone_styling_anki2_1_54` (Modern) collects the whole candidate line
when the regex matches; `append_tone_styling_anki2_1_49` (Legacy) collects
the pair of match groups.  Both warn (via `showWarning`) on a candidate
line that the regex does not match.  Each step returns the rules the line
contributes together with the number of warnings it emits. -/

/-- One Modern-tier loop iteration over a stylesheet line. -/
def modernLineStep (line : List Char) : List (List Char) × Nat :=
  if containsSub tonePat line then
    match toneRuleSearch line with
    | some _ => ([line], 0)
    | none => ([], 1)
  else ([], 0)

/-- One Legacy-tier loop iteration over a stylesheet line. -/
def legacyLineStep (line : List Char) : List (List Char × List Char) × Nat :=
  if startsWithPat tonePat line then
    match toneRuleSearch line with
    | some g => ([g], 0)
    | none => ([], 1)
  else ([], 0)

/-- Modern-tier extraction over the list of stylesheet lines. -/
def modernExtractLines : List (List Char) → List (List Char) × Nat
  | [] => ([], 0)
  | l :: ls =>
    ((modernLineStep l).1 ++ (modernExtractLines ls).1,
     (modernLineStep l).2 + (modernExtractLines ls).2)

/-- Legacy-tier extraction over the list of stylesheet lines. -/
def legacyExtractLines : List (List Char) → List (List Char × List Char) × Nat
  | [] => ([], 0)
  | l :: ls =>
    ((legacyLineStep l).1 ++ (legacyExtractLines ls).1,
     (legacyLineStep l).2 + (legacyExtractLines ls).2)

/-- Modern-tier extraction from the stylesheet text
(`for line in css.split('\n')`). -/
def modernExtract (css : List Char) : List (List Char) × Nat :=
  modernExtractLines (splitOn '\n' css)

/-- Legacy-tier extraction from the stylesheet text. -/
def legacyExtract (css : List Char) : List (List Char × List Char) × Nat :=
  legacyExtractLines (splitOn '\n' css)

/-! ### Legacy injection (`append_tone_styling_anki2_1_49`, lines 188-196) -/

/-- The pairs one `;`-separated part of a declaration body contributes:
parts containing `:` are split at the first `:` into a stripped
(property, value) pair; parts without `:` are skipped.  The `none` branch
of `splitFirst` is unreachable (the part is known to contain `:`). -/
def declStep (part : List Char) : List (List Char × List Char) :=
  if hasChar ':' part then
    match splitFirst ':' part with
    | some pv => [(pyStrip pv.1, pyStrip pv.2)]
    | none => []
  else []

/-- Decomposition of a declaration body as performed inside the Legacy
generation loop: split on `;` and process each part with `declStep`. -/
def parseDecls (ruledef : List Char) : List (List Char × List Char) :=
  concatMap declStep (splitOn ';' ruledef)

/-- One step of the same decomposition with the Python failure mode made
explicit: the destructuring `[property, value] = part.split(':', 1)`
raises when the split does not yield two pieces, modelled by `Except`. -/
def declStepE (acc : List (List Char × List Char)) (part : List Char) :
    Except Unit (List (List Char × List Char)) :=
  if hasChar ':' part then
    match splitFirst ':' part with
    | some pv => Except.ok (acc ++ [(pyStrip pv.1, pyStrip pv.2)])
    | none => Except.error ()
  else Except.ok acc

/-- Exception-aware Legacy declaration decomposition. -/
def parseDeclsE (ruledef : List Char) : Except Unit (List (List Char × List Char)) :=
  (splitOn ';' ruledef).foldlM declStepE []

/-- One generated Legacy assignment statement
`jQuery('SEL', this.shadowRoot).css('PROP', 'VAL');\n`. -/
def legacyStmt (rulename property value : List Char) : List Char :=
  chars "jQuery('" ++ rulename ++ chars "', this.shadowRoot).css('" ++
    property ++ chars "', '" ++ value ++ chars "');\n"

/-- The concatenated per-rule statements (`inner_js` in the source). -/
def legacyInnerJs (rules : List (List Char × List Char)) : List Char :=
  concatMap
    (fun r =>
      concatMap (fun pv => legacyStmt (pyStrip r.1) pv.1 pv.2) (parseDecls r.2))
    rules

/-- The fixed wrapper of the Legacy script. -/
def legacyJsHeader : List Char := chars "jQuery('div.field').each(function () \x7b\n"

/-- The full Legacy script
`"jQuery('div.field').each(function () {\n%s})" % inner_js`. -/
def legacyJs (rules : List (List Char × List Char)) : List Char :=
  legacyJsHeader ++ legacyInnerJs rules ++ chars "\x7d)"

/-- Runtime model of `jQuery('div.field').each(...)`: the callback body
statements execute once per editable field root; application `(i, st)`
means statement `st` runs against field root `i`. -/
def execPerFieldRoot (nRoots : Nat) (stmts : List (List Char)) : List (Nat × List Char) :=
  concatMap (fun i => stmts.map (fun st => (i, st))) (List.range nRoots)

/-! ### Modern injection (`append_tone_styling_anki2_1_54`, lines 162-175) -/

/-- JSON escaping of one character as in `json.dumps`
(`\uXXXX` escapes for other control characters are not exercised here). -/
def jsonEscapeChar (c : Char) : List Char :=
  if c = '"' then ['\\', '"']
  else if c = '\\' then ['\\', '\\']
  else if c = '\n' then ['\\', 'n']
  else if c = '\t' then ['\\', 't']
  else if c = '\r' then ['\\', 'r']
  else [c]

/-- Interleave a separator between list elements. -/
def joinSep (sep : List Char) : List (List Char) → List Char
  | [] => []
  | [x] => x
  | x :: y :: rest => x ++ sep ++ joinSep sep (y :: rest)

/-- `json.dumps` of one string. -/
def jsonDumpsStr (s : List Char) : List Char :=
  '"' :: concatMap jsonEscapeChar s ++ ['"']

/-- `json.dumps` of a list of strings (default `", "` separator). -/
def jsonDumps (xs : List (List Char)) : List Char :=
  '[' :: joinSep (chars ", ") (xs.map jsonDumpsStr) ++ [']']

/-- The fixed tail of the Modern script (the triple-quoted string appended
after the `CSSRULES` declaration, verbatim including indentation). -/
def modernJsTail : List Char :=
  chars "\n    require(\"anki/ui\").loaded.then(() => \n      require(\"anki/RichTextInput\").instances.forEach(inst =>\n        inst.customStyles.then(styles => \x7b\n          var sheet = styles.styleMap.get(\"userBase\").element.sheet;\n          CSSRULES.forEach(rule =>\n            sheet.insertRule(rule)\n          );\n        \x7d)\n      )\n    );\n    "

/-- The full Modern script `f"var CSSRULES = {json.dumps(rules)};"` plus
the fixed tail. -/
def modernJs (rules : List (List Char)) : List Char :=
  chars "var CSSRULES = " ++ jsonDumps rules ++ chars ";" ++ modernJsTail

/-! ### The two top-level injectors

Each call extracts rules from the stylesheet, emits the collected warnings,
and performs exactly one `editor.web.eval(js)`; the scripts dispatched by
one invocation are modelled as a list. -/

/-- `append_tone_styling_anki2_1_54`: (warnings emitted, scripts evaluated). -/
def appendToneStyling54 (css : List Char) : Nat × List (List Char) :=
  ((modernExtract css).2, [modernJs (modernExtract css).1])

/-- `append_tone_styling_anki2_1_49`: (warnings emitted, scripts evaluated). -/
def appendToneStyling49 (css : List Char) : Nat × List (List Char) :=
  ((legacyExtract css).2, [legacyJs (legacyExtract css).1])

/-! ### Version dispatch (module load, lines 199-208) -/

/-- The compatibility tier bound at module load. -/
inductive Tier where
  | legacy
  | modern
  | unsupported
deriving DecidableEq

/-- Python `<` on integer lists: lexicographic, a strict prefix is smaller. -/
def listLT : List Nat → List Nat → Bool
  | [], [] => false
  | [], _ :: _ => true
  | _ :: _, [] => false
  | a :: as, b :: bs => if a < b then true else if b < a then false else listLT as bs

/-- Python `>=` on integer lists (negation of `<`, a total order). -/
def listGE (v w : List Nat) : Bool := !listLT v w

/-- The module-load dispatch: which strategy is bound to
`append_tone_styling`, and how many startup warnings are shown. -/
def versionDispatch (v : List Nat) : Tier × Nat :=
  if listLT v [2, 1, 50] then (Tier.legacy, 0)
  else if listGE v [2, 1, 54] then (Tier.modern, 0)
  else (Tier.unsupported, 1)

/-- `int(x)` on a run of ASCII digits (signs, whitespace and underscores
accepted by Python `int` are not exercised by version strings). -/
def parseIntDigits (s : List Char) : Option Nat :=
  if s = [] then none
  else if s.all Char.isDigit then
    some (s.foldl (fun n c => 10 * n + (c.toNat - 48)) 0)
  else none

/-- `[int(x) for x in version.split('.')]`. -/
def parseVersion (s : List Char) : Option (List Nat) :=
  (splitOn '.' s).mapM parseIntDigits

/-- Parse the host version string and classify it. -/
def selectStrategy (versionStr : List Char) : Option (Tier × Nat) :=
  (parseVersion versionStr).map versionDispatch

/-- The spec-side strict order on version triples. -/
def tripleLT (x y : Nat × Nat × Nat) : Prop :=
  x.1 < y.1 ∨ (x.1 = y.1 ∧ (x.2.1 < y.2.1 ∨ (x.2.1 = y.2.1 ∧ x.2.2 < y.2.2)))

instance (x y : Nat × Nat × Nat) : Decidable (tripleLT x y) := by
  unfold tripleLT; infer_instance

/-- The spec-side single-line tone-rule pattern with exactly one digit in
the class name: some position of the line decomposes into `.tone`, a digit,
a run of spaces, `{`, a brace-free body, and `}`. -/
def ToneRulePattern (s : List Char) : Prop :=
  ∃ pre : List Char, ∃ d : Char, ∃ sp body post : List Char,
    s = pre ++ tonePat ++ d :: (sp ++ '{' :: (body ++ '}' :: post)) ∧
    d.isDigit = true ∧ (∀ c ∈ sp, c = ' ') ∧ '}' ∉ body

/-! ### Helper lemmas about the string primitives -/

theorem dropPrefixQ_eq_some_iff : ∀ {p s r : List Char}, dropPrefixQ p s = some r ↔ s = p ++ r := by
  intro p
  induction p with
  | nil => intro s r; simp [dropPrefixQ]
  | cons x xs ih =>
    intro s r
    cases s with
    | nil => simp [dropPrefixQ]
    | cons c cs =>
      by_cases h : c = x
      · subst h; simp [dropPrefixQ, ih]
      · simp [dropPrefixQ, h]

theorem splitFirst_eq_some {sep : Char} :
    ∀ {s a b : List Char}, splitFirst sep s = some (a, b) → s = a ++ sep :: b ∧ sep ∉ a := by
  intro s
  induction s with
  | nil => intro a b h; simp [splitFirst] at h
  | cons c cs ih =>
    intro a b h
    by_cases hc : c = sep
    · rw [splitFirst, if_pos hc] at h
      injection h with h1
      injection h1 with h2 h3
      subst h2
      subst h3
      constructor
      · rw [hc]
        rfl
      · simp
    · rw [splitFirst, if_neg hc] at h
      cases hsf : splitFirst sep cs with
      | none => rw [hsf] at h; cases h
      | some ab =>
        obtain ⟨a', b'⟩ := ab
        rw [hsf] at h
        injection h with h1
        injection h1 with h2 h3
        subst h2
        subst h3
        obtain ⟨hh1, hh2⟩ := ih hsf
        constructor
        · rw [List.cons_append, ← hh1]
        · intro hm
          rcases List.mem_cons.mp hm with he | hm2
          · exact hc he.symm
          · exact hh2 hm2

theorem splitFirst_append {sep : Char} :
    ∀ (a b : List Char), sep ∉ a → splitFirst sep (a ++ sep :: b) = some (a, b) := by
  intro a
  induction a with
  | nil => intro b _; simp [splitFirst]
  | cons c cs ih =>
    intro b h
    have hc : ¬ c = sep := fun e => h (by simp [e])
    have hcs : sep ∉ cs := fun m => h (List.mem_cons_of_mem _ m)
    rw [List.cons_append, splitFirst, if_neg hc, ih b hcs]

theorem hasChar_iff {c : Char} : ∀ {s : List Char}, hasChar c s = true ↔ c ∈ s := by
  intro s
  induction s with
  | nil => simp [hasChar]
  | cons x xs ih =>
    rw [hasChar]
    simp only [Bool.or_eq_true, decide_eq_true_eq, ih, List.mem_cons]
    constructor
    · rintro (h | h)
      · exact Or.inl h.symm
      · exact Or.inr h
    · rintro (h | h)
      · exact Or.inl h.symm
      · exact Or.inr h

theorem hasChar_append {c : Char} :
    ∀ (a b : List Char), hasChar c (a ++ b) = (hasChar c a || hasChar c b) := by
  intro a b
  induction a with
  | nil => simp [hasChar]
  | cons x xs ih => simp [hasChar, ih, Bool.or_assoc]

theorem hasChar_splitFirst {c : Char} :
    ∀ {s : List Char}, hasChar c s = true → ∃ a b, splitFirst c s = some (a, b) := by
  intro s
  induction s with
  | nil => intro h; simp [hasChar] at h
  | cons x xs ih =>
    intro h
    by_cases hx : x = c
    · exact ⟨[], xs, by simp [splitFirst, hx]⟩
    · have : hasChar c xs = true := by
        simpa [hasChar, hx] using h
      obtain ⟨a, b, hab⟩ := ih this
      exact ⟨x :: a, b, by simp [splitFirst, hx, hab]⟩

theorem dropWhile_all_append {p : Char → Bool} :
    ∀ (sp l : List Char), (∀ c ∈ sp, p c = true) →
      List.dropWhile p (sp ++ l) = List.dropWhile p l := by
  intro sp
  induction sp with
  | nil => intro l _; rfl
  | cons c cs ih =>
    intro l h
    have hc : p c = true := h c (by simp)
    rw [List.cons_append, List.dropWhile_cons, if_pos hc]
    exact ih l (fun x hx => h x (by simp [hx]))

theorem concatMap_append {f : α → List β} :
    ∀ (a b : List α), concatMap f (a ++ b) = concatMap f a ++ concatMap f b := by
  intro a b
  induction a with
  | nil => rfl
  | cons x xs ih => simp [concatMap, ih]

theorem splitOn_ne_nil {sep : Char} : ∀ (s : List Char), splitOn sep s ≠ [] := by
  intro s
  cases s with
  | nil => simp [splitOn]
  | cons c cs =>
    by_cases h : c = sep
    · simp [splitOn, h]
    · simp only [splitOn, if_neg h]
      cases splitOn sep cs <;> simp

theorem splitOn_append_sep {sep : Char} :
    ∀ (a b : List Char), splitOn sep (a ++ sep :: b) = splitOn sep a ++ splitOn sep b := by
  intro a b
  induction a with
  | nil => simp [splitOn]
  | cons c cs ih =>
    by_cases h : c = sep
    · have hL : splitOn sep ((c :: cs) ++ sep :: b) = [] :: (splitOn sep cs ++ splitOn sep b) := by
        rw [List.cons_append, splitOn, if_pos h, ih]
      have hR : splitOn sep (c :: cs) = [] :: splitOn sep cs := by
        rw [splitOn, if_pos h]
      rw [hL, hR, List.cons_append]
    · cases hcs : splitOn sep cs with
      | nil => exact absurd hcs (splitOn_ne_nil cs)
      | cons g gs =>
        have hL : splitOn sep ((c :: cs) ++ sep :: b) = (c :: g) :: (gs ++ splitOn sep b) := by
          rw [List.cons_append, splitOn, if_neg h, ih, hcs, List.cons_append]
        have hR : splitOn sep (c :: cs) = (c :: g) :: gs := by
          rw [splitOn, if_neg h, hcs]
        rw [hL, hR, List.cons_append]

theorem splitOn_of_no_sep {sep : Char} :
    ∀ (s : List Char), hasChar sep s = false → splitOn sep s = [s] := by
  intro s
  induction s with
  | nil => intro _; rfl
  | cons c cs ih =>
    intro h
    have hc : ¬ c = sep := by
      intro e
      rw [hasChar, e] at h
      simp at h
    have hcs : hasChar sep cs = false := by
      rw [hasChar] at h
      exact (Bool.or_eq_false_iff.mp h).2
    rw [splitOn, if_neg hc, ih hcs]

theorem splitOn_head_pre {sep : Char} :
    ∀ (s g : List Char) (gs : List (List Char)),
      splitOn sep s = g :: gs → ∃ post, s = g ++ post := by
  intro s
  induction s with
  | nil =>
    intro g gs h
    rw [splitOn] at h
    injection h with h1 h2
    exact ⟨[], by rw [← h1]; rfl⟩
  | cons c cs ih =>
    intro g gs h
    by_cases hc : c = sep
    · rw [splitOn, if_pos hc] at h
      injection h with h1 h2
      exact ⟨c :: cs, by rw [← h1]; rfl⟩
    · rw [splitOn, if_neg hc] at h
      cases hcs : splitOn sep cs with
      | nil => exact absurd hcs (splitOn_ne_nil cs)
      | cons g' gs' =>
        rw [hcs] at h
        injection h with h1 h2
        obtain ⟨post, hpost⟩ := ih g' gs' hcs
        refine ⟨post, ?_⟩
        rw [← h1, List.cons_append, ← hpost]

theorem mem_splitOn_infix {sep : Char} :
    ∀ (s l : List Char), l ∈ splitOn sep s → ∃ pre post, s = pre ++ (l ++ post) := by
  intro s
  induction s with
  | nil =>
    intro l h
    rw [splitOn] at h
    rcases List.mem_singleton.mp h with rfl
    exact ⟨[], [], rfl⟩
  | cons c cs ih =>
    intro l h
    by_cases hc : c = sep
    · rw [splitOn, if_pos hc] at h
      rcases List.mem_cons.mp h with rfl | hm
      · exact ⟨[], c :: cs, rfl⟩
      · obtain ⟨pre, post, hp⟩ := ih l hm
        exact ⟨c :: pre, post, by rw [hp]; rfl⟩
    · rw [splitOn, if_neg hc] at h
      cases hcs : splitOn sep cs with
      | nil => exact absurd hcs (splitOn_ne_nil cs)
      | cons g gs =>
        rw [hcs] at h
        rcases List.mem_cons.mp h with rfl | hm
        · obtain ⟨post, hpost⟩ := splitOn_head_pre cs g gs hcs
          exact ⟨[], post, by rw [hpost]; rfl⟩
        · have hm2 : l ∈ splitOn sep cs := by rw [hcs]; exact List.mem_cons_of_mem _ hm
          obtain ⟨pre, post, hp⟩ := ih l hm2
          exact ⟨c :: pre, post, by rw [hp]; rfl⟩

theorem containsSub_iff {pat : List Char} :
    ∀ {s : List Char}, containsSub pat s = true ↔ ∃ a b, s = a ++ pat ++ b := by
  intro s
  induction s with
  | nil =>
    constructor
    · intro h
      rw [containsSub] at h
      obtain ⟨r, hr⟩ := Option.isSome_iff_exists.mp h
      have he := dropPrefixQ_eq_some_iff.mp hr
      have h3 := List.append_eq_nil.mp he.symm
      exact ⟨[], [], by rw [h3.1]; rfl⟩
    · rintro ⟨a, b, hab⟩
      have h2 : a ++ (pat ++ b) = [] := by rw [← List.append_assoc]; exact hab.symm
      have h3 := List.append_eq_nil.mp h2
      have h4 := List.append_eq_nil.mp h3.2
      rw [containsSub, h4.1]
      simp [dropPrefixQ]
  | cons c cs ih =>
    constructor
    · intro h
      rw [containsSub] at h
      rcases Bool.or_eq_true_iff.mp h with h1 | h2
      · obtain ⟨r, hr⟩ := Option.isSome_iff_exists.mp h1
        exact ⟨[], r, by simpa using dropPrefixQ_eq_some_iff.mp hr⟩
      · obtain ⟨a, b, hab⟩ := ih.mp h2
        exact ⟨c :: a, b, by simp [hab]⟩
    · rintro ⟨a, b, hab⟩
      rw [containsSub]
      cases a with
      | nil =>
        have h1 : dropPrefixQ pat (c :: cs) = some b :=
          dropPrefixQ_eq_some_iff.mpr (by simpa using hab)
        simp [h1]
      | cons a' as =>
        have h1 : c = a' ∧ cs = as ++ (pat ++ b) := by simpa using hab
        have h2 : containsSub pat cs = true := ih.mpr ⟨as, b, by simp [h1.2]⟩
        simp [h2]

theorem matchToneRuleAt_eq_some_iff {s g1 g2 : List Char} :
    matchToneRuleAt s = some (g1, g2) ↔
      ∃ d : Char, ∃ sp post : List Char,
        s = tonePat ++ d :: (sp ++ '{' :: (g2 ++ '}' :: post)) ∧
        d.isDigit = true ∧ (∀ c ∈ sp, c = ' ') ∧ '}' ∉ g2 ∧ g1 = tonePat ++ [d] := by
  constructor
  · intro h
    rw [matchToneRuleAt] at h
    cases hp : dropPrefixQ tonePat s with
    | none => rw [hp] at h; simp at h
    | some rest =>
      rw [hp] at h
      dsimp only at h
      have hs : s = tonePat ++ rest := dropPrefixQ_eq_some_iff.mp hp
      cases rest with
      | nil => simp at h
      | cons d rest1 =>
        dsimp only at h
        by_cases hd : d.isDigit = true
        · rw [if_pos hd] at h
          cases hdw : rest1.dropWhile (fun c => c = ' ') with
          | nil => rw [hdw] at h; simp at h
          | cons b rest2 =>
            rw [hdw] at h
            dsimp only at h
            by_cases hb : b = '{'
            · rw [if_pos hb] at h
              cases hsf : splitFirst '}' rest2 with
              | none => rw [hsf] at h; simp at h
              | some bodyPost =>
                obtain ⟨body, post⟩ := bodyPost
                rw [hsf] at h
                dsimp only at h
                injection h with h1
                injection h1 with hg1 hg2
                obtain ⟨hb1, hb2⟩ := splitFirst_eq_some hsf
                refine ⟨d, rest1.takeWhile (fun c => c = ' '), post, ?_, hd, ?_, ?_, hg1.symm⟩
                · have h4 : rest1 = rest1.takeWhile (fun c => c = ' ') ++ b :: rest2 := by
                    conv_lhs => rw [← List.takeWhile_append_dropWhile (fun c => c = ' ') rest1]
                    rw [hdw]
                  have h6 : rest1 =
                      rest1.takeWhile (fun c => c = ' ') ++ '{' :: (g2 ++ '}' :: post) := by
                    rw [← hg2, ← hb1, ← hb]
                    exact h4
                  rw [hs]
                  conv_lhs => rw [h6]
                · intro c hc
                  have h5 := List.mem_takeWhile_imp hc
                  simpa using h5
                · rw [← hg2]
                  exact hb2
            · rw [if_neg hb] at h; cases h
        · rw [if_neg hd] at h; cases h
  · rintro ⟨d, sp, post, hs, hd, hsp, hbody, hg1⟩
    subst hs
    subst hg1
    have hsp2 : ∀ c ∈ sp, (fun c => decide (c = ' ')) c = true := by
      intro c hc
      simp [hsp c hc]
    have h1 : dropPrefixQ tonePat (tonePat ++ d :: (sp ++ '{' :: (g2 ++ '}' :: post))) =
        some (d :: (sp ++ '{' :: (g2 ++ '}' :: post))) := dropPrefixQ_eq_some_iff.mpr rfl
    have h2 : (sp ++ '{' :: (g2 ++ '}' :: post)).dropWhile (fun c => c = ' ') =
        '{' :: (g2 ++ '}' :: post) := by
      rw [dropWhile_all_append sp _ hsp2]
      rw [List.dropWhile_cons_of_neg]
      simp
    simp only [matchToneRuleAt, h1, hd, if_true, h2]
    simp [splitFirst_append g2 post hbody]

theorem toneRuleSearch_isSome_iff :
    ∀ {s : List Char}, (toneRuleSearch s).isSome = true ↔ ToneRulePattern s := by
  intro s
  induction s with
  | nil =>
    constructor
    · intro h
      rw [toneRuleSearch] at h
      simp at h
    · rintro ⟨pre, d, sp, body, post, hs, hd, hsp, hb⟩
      exfalso
      have h1 := hs.symm
      rw [List.append_assoc] at h1
      have h2 := List.append_eq_nil.mp h1
      have h3 := List.append_eq_nil.mp h2.2
      simp [tonePat] at h3
  | cons c cs ih =>
    rw [toneRuleSearch]
    cases hm : matchToneRuleAt (c :: cs) with
    | some r =>
      obtain ⟨g1, g2⟩ := r
      show (some (g1, g2)).isSome = true ↔ ToneRulePattern (c :: cs)
      obtain ⟨d, sp, post, hs, hd, hsp, hb, hg⟩ := matchToneRuleAt_eq_some_iff.mp hm
      constructor
      · intro _
        exact ⟨[], d, sp, g2, post, by rw [hs]; rfl, hd, hsp, hb⟩
      · intro _
        simp
    | none =>
      show (toneRuleSearch cs).isSome = true ↔ ToneRulePattern (c :: cs)
      have hiff : ToneRulePattern (c :: cs) ↔ ToneRulePattern cs := by
        constructor
        · rintro ⟨pre, d, sp, body, post, hs, hd, hsp, hb⟩
          cases pre with
          | nil =>
            exfalso
            have h1 : matchToneRuleAt (c :: cs) = some (tonePat ++ [d], body) :=
              matchToneRuleAt_eq_some_iff.mpr ⟨d, sp, post, by simpa using hs, hd, hsp, hb, rfl⟩
            rw [hm] at h1
            cases h1
          | cons c' pre' =>
            have h2 : c :: cs =
                c' :: (pre' ++ tonePat ++ d :: (sp ++ '{' :: (body ++ '}' :: post))) := by
              rw [hs]
              simp
            injection h2 with h3 h4
            exact ⟨pre', d, sp, body, post, h4, hd, hsp, hb⟩
        · rintro ⟨pre, d, sp, body, post, hs, hd, hsp, hb⟩
          refine ⟨c :: pre, d, sp, body, post, ?_, hd, hsp, hb⟩
          rw [hs]
          simp
      rw [ih]
      exact hiff.symm

theorem startsWith_containsSub {pat : List Char} :
    ∀ {s : List Char}, startsWithPat pat s = true → containsSub pat s = true := by
  intro s h
  cases s with
  | nil => simpa [containsSub, startsWithPat] using h
  | cons c cs =>
    rw [containsSub]
    rw [startsWithPat] at h
    simp [h]

theorem modernExtractLines_append :
    ∀ (xs ys : List (List Char)),
      modernExtractLines (xs ++ ys) =
        ((modernExtractLines xs).1 ++ (modernExtractLines ys).1,
         (modernExtractLines xs).2 + (modernExtractLines ys).2) := by
  intro xs ys
  induction xs with
  | nil => simp [modernExtractLines]
  | cons l ls ih =>
    show modernExtractLines (l :: (ls ++ ys)) = _
    rw [modernExtractLines, ih, modernExtractLines]
    simp [Nat.add_assoc]

theorem legacyExtractLines_append :
    ∀ (xs ys : List (List Char)),
      legacyExtractLines (xs ++ ys) =
        ((legacyExtractLines xs).1 ++ (legacyExtractLines ys).1,
         (legacyExtractLines xs).2 + (legacyExtractLines ys).2) := by
  intro xs ys
  induction xs with
  | nil => simp [legacyExtractLines]
  | cons l ls ih =>
    show legacyExtractLines (l :: (ls ++ ys)) = _
    rw [legacyExtractLines, ih, legacyExtractLines]
    simp [Nat.add_assoc]

theorem listLT_iff_tripleLT {a b c x y z : Nat} :
    listLT [a, b, c] [x, y, z] = true ↔ tripleLT (a, b, c) (x, y, z) := by
  simp only [listLT, tripleLT]
  split_ifs <;> simp_all <;> omega

theorem declsFoldAux :
    ∀ (parts : List (List Char)) (acc : List (List Char × List Char)),
      List.foldlM declStepE acc parts = Except.ok (acc ++ concatMap declStep parts) := by
  intro parts
  induction parts with
  | nil =>
    intro acc
    simp [concatMap]
    rfl
  | cons part rest ih =>
    intro acc
    have hstep : declStepE acc part = Except.ok (acc ++ declStep part) := by
      rw [declStepE, declStep]
      by_cases h : hasChar ':' part = true
      · obtain ⟨p, v, hpv⟩ := hasChar_splitFirst h
        rw [if_pos h, if_pos h, hpv]
      · rw [if_neg h, if_neg h]
        simp
    rw [List.foldlM_cons, hstep]
    show List.foldlM declStepE (acc ++ declStep part) rest = _
    rw [ih (acc ++ declStep part), concatMap, List.append_assoc]

theorem modernLineStep_of_match {line : List Char} {g : List Char × List Char}
    (h1 : containsSub tonePat line = true) (h2 : toneRuleSearch line = some g) :
    modernLineStep line = ([line], 0) := by
  simp [modernLineStep, h1, h2]

theorem modernLineStep_of_nomatch {line : List Char}
    (h1 : containsSub tonePat line = true) (h2 : toneRuleSearch line = none) :
    modernLineStep line = ([], 1) := by
  simp [modernLineStep, h1, h2]

theorem legacyLineStep_of_nomatch {line : List Char}
    (h1 : startsWithPat tonePat line = true) (h2 : toneRuleSearch line = none) :
    legacyLineStep line = ([], 1) := by
  simp [legacyLineStep, h1, h2]

theorem extractLines_of_no_candidates :
    ∀ (lines : List (List Char)), (∀ l ∈ lines, containsSub tonePat l = false) →
      modernExtractLines lines = ([], 0) ∧ legacyExtractLines lines = ([], 0) := by
  intro lines
  induction lines with
  | nil => intro _; exact ⟨rfl, rfl⟩
  | cons l ls ih =>
    intro h
    have h1 : containsSub tonePat l = false := h l (by simp)
    have h2 := ih (fun x hx => h x (by simp [hx]))
    have h3 : startsWithPat tonePat l = false := by
      cases hv : startsWithPat tonePat l
      · rfl
      · have h4 := startsWith_containsSub hv
        rw [h1] at h4
        cases h4
    constructor
    · rw [modernExtractLines, h2.1]
      simp [modernLineStep, h1]
    · rw [legacyExtractLines, h2.2]
      simp [legacyLineStep, h3]

/-! ### Claim theorems -/

/-- C1: Version dispatch.  Parsing the host version into a numeric triple
selects the Legacy strategy with no warning for every triple strictly
below (2,1,50), the Modern strategy with no warning for every triple at or
above (2,1,54) (i.e. not strictly below it), and the Unsupported no-op
with exactly one startup warning for every triple in between; in
particular "2.1.49" selects Legacy, "2.1.54" and "2.1.60" select Modern,
and "2.1.51" selects Unsupported with one warning. -/
theorem version_dispatch_classifies :
    (∀ a b c : Nat, tripleLT (a, b, c) (2, 1, 50) →
      versionDispatch [a, b, c] = (Tier.legacy, 0)) ∧
    (∀ a b c : Nat, ¬ tripleLT (a, b, c) (2, 1, 54) →
      versionDispatch [a, b, c] = (Tier.modern, 0)) ∧
    (∀ a b c : Nat, ¬ tripleLT (a, b, c) (2, 1, 50) → tripleLT (a, b, c) (2, 1, 54) →
      versionDispatch [a, b, c] = (Tier.unsupported, 1)) ∧
    selectStrategy (chars "2.1.49") = some (Tier.legacy, 0) ∧
    selectStrategy (chars "2.1.54") = some (Tier.modern, 0) ∧
    selectStrategy (chars "2.1.60") = some (Tier.modern, 0) ∧
    selectStrategy (chars "2.1.51") = some (Tier.unsupported, 1) := by
  refine ⟨?_, ?_, ?_, by decide, by decide, by decide, by decide⟩
  · intro a b c h
    have hlt : listLT [a, b, c] [2, 1, 50] = true := listLT_iff_tripleLT.mpr h
    simp [versionDispatch, hlt]
  · intro a b c h
    have hlt : listLT [a, b, c] [2, 1, 54] = false := by
      cases hv : listLT [a, b, c] [2, 1, 54]
      · rfl
      · exact absurd (listLT_iff_tripleLT.mp hv) h
    have h50 : ¬ tripleLT (a, b, c) (2, 1, 50) := by
      intro hx
      apply h
      unfold tripleLT at hx ⊢
      dsimp only at hx ⊢
      omega
    have hlt50 : listLT [a, b, c] [2, 1, 50] = false := by
      cases hv : listLT [a, b, c] [2, 1, 50]
      · rfl
      · exact absurd (listLT_iff_tripleLT.mp hv) h50
    simp [versionDispatch, listGE, hlt50, hlt]
  · intro a b c h1 h2
    have hlt50 : listLT [a, b, c] [2, 1, 50] = false := by
      cases hv : listLT [a, b, c] [2, 1, 50]
      · rfl
      · exact absurd (listLT_iff_tripleLT.mp hv) h1
    have hlt54 : listLT [a, b, c] [2, 1, 54] = true := listLT_iff_tripleLT.mpr h2
    simp [versionDispatch, listGE, hlt50, hlt54]

/-- C1 witness: the classification applied at the concrete triples
(2,1,49), (2,1,60) and (2,1,51). -/
theorem version_dispatch_classifies_witness :
    versionDispatch [2, 1, 49] = (Tier.legacy, 0) ∧
    versionDispatch [2, 1, 60] = (Tier.modern, 0) ∧
    versionDispatch [2, 1, 51] = (Tier.unsupported, 1) :=
  ⟨version_dispatch_classifies.1 2 1 49 (by decide),
   version_dispatch_classifies.2.1 2 1 60 (by decide),
   version_dispatch_classifies.2.2.1 2 1 51 (by decide) (by decide)⟩

/-- C2 counterexample: for the candidate line `x .tone1{a}`, which matches
the rule pattern (selector `.tone1`, body `a`), Modern extraction keeps the
entire line, which is strictly more than the selector-plus-body rule text
`.tone1{a}` (it retains the leading `x `), refuting "selector plus body
(and nothing else)". -/
theorem modern_keeps_whole_line_counterexample :
    modernLineStep (chars "x .tone1\x7ba\x7d") = ([chars "x .tone1\x7ba\x7d"], 0) ∧
    toneRuleSearch (chars "x .tone1\x7ba\x7d") = some (chars ".tone1", chars "a") ∧
    chars "x .tone1\x7ba\x7d" ≠ chars ".tone1\x7ba\x7d" := by
  refine ⟨by decide, by decide, by decide⟩

/-- C2 (amended): for every candidate line on which the rule pattern
matches, Modern extraction keeps the entire line verbatim for reinsertion
(which can include text besides the rule); for the line exactly
`.tone1 { color: red; }` the kept rule is that whole line, whose pattern
match has selector `.tone1` and raw (untrimmed) body ` color: red; `. -/
theorem modern_extraction_keeps_line :
    (∀ (line : List Char) (g : List Char × List Char),
      containsSub tonePat line = true → toneRuleSearch line = some g →
      modernLineStep line = ([line], 0)) ∧
    modernExtract (chars ".tone1 \x7b color: red; \x7d") =
      ([chars ".tone1 \x7b color: red; \x7d"], 0) ∧
    toneRuleSearch (chars ".tone1 \x7b color: red; \x7d") =
      some (chars ".tone1", chars " color: red; ") := by
  exact ⟨fun line g h1 h2 => modernLineStep_of_match h1 h2, by decide, by decide⟩

/-- C2 witness: the general part applied at the line `.tone1 { color: red; }`. -/
theorem modern_extraction_keeps_line_witness :
    modernLineStep (chars ".tone1 \x7b color: red; \x7d") =
      ([chars ".tone1 \x7b color: red; \x7d"], 0) :=
  modern_extraction_keeps_line.1 (chars ".tone1 \x7b color: red; \x7d")
    (chars ".tone1", chars " color: red; ") (by decide) (by decide)

/-- C3 counterexample: for the single rule with selector `.tone1` and body
`color: red`, the generated Legacy command contains the scoped assignment
statement exactly once, not twice: the number of field roots never appears
in the generated command text. -/
theorem legacy_injection_single_statement_counterexample :
    countSub (legacyStmt (chars ".tone1") (chars "color") (chars "red"))
      (legacyJs [(chars ".tone1", chars "color: red")]) = 1 ∧
    countSub (legacyStmt (chars ".tone1") (chars "color") (chars "red"))
      (legacyJs [(chars ".tone1", chars "color: red")]) ≠ 2 := by
  refine ⟨by decide, by decide⟩

/-- C3 (amended): Legacy injection over the single rule (`.tone1`,
`color: red`) — whose decomposed declarations are [("color","red")] —
produces a generated command containing exactly one scoped assignment
statement, placed inside the single per-field-root iteration construct;
executing that construct against two field roots applies the assignment
twice, once per field root, each setting `color` to `red` on elements
matching `.tone1`. -/
theorem legacy_injection_statement_per_root :
    parseDecls (chars "color: red") = [(chars "color", chars "red")] ∧
    legacyJs [(chars ".tone1", chars "color: red")] =
      legacyJsHeader ++
        legacyStmt (chars ".tone1") (chars "color") (chars "red") ++ chars "\x7d)" ∧
    countSub (legacyStmt (chars ".tone1") (chars "color") (chars "red"))
      (legacyJs [(chars ".tone1", chars "color: red")]) = 1 ∧
    execPerFieldRoot 2 [legacyStmt (chars ".tone1") (chars "color") (chars "red")] =
      [(0, legacyStmt (chars ".tone1") (chars "color") (chars "red")),
       (1, legacyStmt (chars ".tone1") (chars "color") (chars "red"))] := by
  refine ⟨by decide, by decide, by decide, by decide⟩

/-- C4 counterexample: the line `.tone12 { color: red }` (two digits after
`tone`) is not accepted as a rule: the pattern search fails, and under both
tiers the line is a candidate that contributes zero rules and one warning. -/
theorem tone_rule_two_digits_counterexample :
    toneRuleSearch (chars ".tone12 \x7b color: red \x7d") = none ∧
    modernLineStep (chars ".tone12 \x7b color: red \x7d") = ([], 1) ∧
    legacyLineStep (chars ".tone12 \x7b color: red \x7d") = ([], 1) := by
  refine ⟨by decide, by decide, by decide⟩

/-- C4 (amended): a candidate line is accepted as a tone rule exactly when
it matches the single-line pattern with exactly one digit in the class
name: dot, `tone`, one digit, optional spaces, `{`, a brace-free body, `}`
all on one line (`.tone12 ...` is hence rejected with a warning). -/
theorem tone_rule_acceptance_single_digit :
    (∀ line : List Char, containsSub tonePat line = true →
      ((modernLineStep line).1 = [line] ↔ ToneRulePattern line)) ∧
    (∀ line : List Char, startsWithPat tonePat line = true →
      ((legacyLineStep line).1 ≠ [] ↔ ToneRulePattern line)) := by
  constructor
  · intro line h
    rw [← toneRuleSearch_isSome_iff, modernLineStep, if_pos h]
    cases hs : toneRuleSearch line
    · simp
    · simp
  · intro line h
    rw [← toneRuleSearch_isSome_iff, legacyLineStep, if_pos h]
    cases hs : toneRuleSearch line
    · simp
    · simp

/-- C4 witness: the acceptance equivalence applied to the candidate line
`.tone4 {color: purple}` under both tiers. -/
theorem tone_rule_acceptance_single_digit_witness :
    ((modernLineStep (chars ".tone4 \x7bcolor: purple\x7d")).1 =
        [chars ".tone4 \x7bcolor: purple\x7d"] ↔
      ToneRulePattern (chars ".tone4 \x7bcolor: purple\x7d")) ∧
    ((legacyLineStep (chars ".tone4 \x7bcolor: purple\x7d")).1 ≠ [] ↔
      ToneRulePattern (chars ".tone4 \x7bcolor: purple\x7d")) :=
  ⟨tone_rule_acceptance_single_digit.1 (chars ".tone4 \x7bcolor: purple\x7d") (by decide),
   tone_rule_acceptance_single_digit.2 (chars ".tone4 \x7bcolor: purple\x7d") (by decide)⟩

/-- C5: for every candidate line on which the pattern does not match (such
as `.tone3 { color: green` with a missing closing brace), extraction emits
exactly one warning for that line, contributes zero rules for it, and
continues over the remaining lines, under both the Legacy and the Modern
tier. -/
theorem malformed_candidate_warns_and_skips :
    (∀ (pre post : List (List Char)) (line : List Char),
      containsSub tonePat line = true → toneRuleSearch line = none →
      modernExtractLines (pre ++ line :: post) =
        ((modernExtractLines pre).1 ++ (modernExtractLines post).1,
         (modernExtractLines pre).2 + 1 + (modernExtractLines post).2)) ∧
    (∀ (pre post : List (List Char)) (line : List Char),
      startsWithPat tonePat line = true → toneRuleSearch line = none →
      legacyExtractLines (pre ++ line :: post) =
        ((legacyExtractLines pre).1 ++ (legacyExtractLines post).1,
         (legacyExtractLines pre).2 + 1 + (legacyExtractLines post).2)) ∧
    modernLineStep (chars ".tone3 \x7b color: green") = ([], 1) ∧
    legacyLineStep (chars ".tone3 \x7b color: green") = ([], 1) := by
  refine ⟨?_, ?_, by decide, by decide⟩
  · intro pre post line h1 h2
    rw [modernExtractLines_append pre (line :: post), modernExtractLines,
      modernLineStep_of_nomatch h1 h2]
    simp [Nat.add_assoc]
  · intro pre post line h1 h2
    rw [legacyExtractLines_append pre (line :: post), legacyExtractLines,
      legacyLineStep_of_nomatch h1 h2]
    simp [Nat.add_assoc]

/-- C5 witness: the warn-and-skip behavior applied with one line before and
one line after the malformed candidate `.tone3 { color: green`, under both
tiers. -/
theorem malformed_candidate_warns_and_skips_witness :
    modernExtractLines ([chars ".x \x7bcolor: blue\x7d"] ++
        chars ".tone3 \x7b color: green" :: [chars "p \x7bmargin: 0\x7d"]) =
      ((modernExtractLines [chars ".x \x7bcolor: blue\x7d"]).1 ++
         (modernExtractLines [chars "p \x7bmargin: 0\x7d"]).1,
       (modernExtractLines [chars ".x \x7bcolor: blue\x7d"]).2 + 1 +
         (modernExtractLines [chars "p \x7bmargin: 0\x7d"]).2) ∧
    legacyExtractLines ([chars ".tone1 \x7bcolor: red\x7d"] ++
        chars ".tone3 \x7b color: green" :: [chars "p \x7bmargin: 0\x7d"]) =
      ((legacyExtractLines [chars ".tone1 \x7bcolor: red\x7d"]).1 ++
         (legacyExtractLines [chars "p \x7bmargin: 0\x7d"]).1,
       (legacyExtractLines [chars ".tone1 \x7bcolor: red\x7d"]).2 + 1 +
         (legacyExtractLines [chars "p \x7bmargin: 0\x7d"]).2) :=
  ⟨malformed_candidate_warns_and_skips.1 [chars ".x \x7bcolor: blue\x7d"]
      [chars "p \x7bmargin: 0\x7d"] (chars ".tone3 \x7b color: green")
      (by decide) (by decide),
   malformed_candidate_warns_and_skips.2.1 [chars ".tone1 \x7bcolor: red\x7d"]
      [chars "p \x7bmargin: 0\x7d"] (chars ".tone3 \x7b color: green")
      (by decide) (by decide)⟩

/-- C6: candidate selection.  Under the Modern tier a line contributes a
rule or a warning exactly when it contains `.tone` anywhere; under the
Legacy tier exactly when it starts with `.tone` — a line with leading
whitespace before `.tone` yields neither a rule nor a warning under
Legacy; and a stylesheet without any `.tone` occurrence extracts to the
empty sequence with no warnings under either tier. -/
theorem candidate_selection :
    (∀ line : List Char,
      (modernLineStep line ≠ ([], 0) ↔ containsSub tonePat line = true)) ∧
    (∀ line : List Char,
      (legacyLineStep line ≠ ([], 0) ↔ startsWithPat tonePat line = true)) ∧
    (∀ css : List Char, containsSub tonePat css = false →
      modernExtract css = ([], 0) ∧ legacyExtract css = ([], 0)) ∧
    legacyLineStep (chars "  .tone1 \x7b color: red; \x7d") = ([], 0) ∧
    containsSub tonePat (chars "  .tone1 \x7b color: red; \x7d") = true := by
  refine ⟨?_, ?_, ?_, by decide, by decide⟩
  · intro line
    rw [modernLineStep]
    by_cases h : containsSub tonePat line = true
    · rw [if_pos h]
      cases toneRuleSearch line <;> simp [h]
    · rw [if_neg h]
      simp [h]
  · intro line
    rw [legacyLineStep]
    by_cases h : startsWithPat tonePat line = true
    · rw [if_pos h]
      cases toneRuleSearch line <;> simp [h]
    · rw [if_neg h]
      simp [h]
  · intro css h
    have hl : ∀ l ∈ splitOn '\n' css, containsSub tonePat l = false := by
      intro l hm
      cases hv : containsSub tonePat l
      · rfl
      · exfalso
        obtain ⟨a, b, hab⟩ := containsSub_iff.mp hv
        obtain ⟨pre, post, hsp⟩ := mem_splitOn_infix css l hm
        have hc : containsSub tonePat css = true := by
          refine containsSub_iff.mpr ⟨pre ++ a, b ++ post, ?_⟩
          rw [hsp, hab]
          simp
        rw [h] at hc
        cases hc
    have h2 := extractLines_of_no_candidates (splitOn '\n' css) hl
    exact ⟨h2.1, h2.2⟩

/-- C6 witness: a stylesheet without any `.tone` occurrence extracts to the
empty rule sequence with no warnings under both tiers. -/
theorem candidate_selection_witness :
    modernExtract (chars "body \x7b color: black \x7d") = ([], 0) ∧
    legacyExtract (chars "body \x7b color: black \x7d") = ([], 0) :=
  candidate_selection.2.2.1 (chars "body \x7b color: black \x7d") (by decide)

/-- C7: Legacy declaration decomposition: the matched body is split on
`;`; a segment containing `:` is split at the first `:` into a
(property, value) pair with surrounding whitespace stripped from both;
segments without `:` are silently skipped; the line `.tone2 {color:blue}`
extracts to the rule (`.tone2`, `color:blue`) decomposing to exactly
[("color","blue")], and `.tone1 { color: red; }` to the rule (`.tone1`,
` color: red; `) decomposing to exactly [("color","red")]. -/
theorem legacy_decl_decomposition :
    (∀ body seg : List Char, hasChar ':' seg = false → hasChar ';' seg = false →
      parseDecls (body ++ ';' :: seg) = parseDecls body) ∧
    (∀ p v : List Char, hasChar ':' p = false → hasChar ';' p = false →
      hasChar ';' v = false →
      parseDecls (p ++ ':' :: v) = [(pyStrip p, pyStrip v)]) ∧
    legacyExtract (chars ".tone2 \x7bcolor:blue\x7d") =
      ([(chars ".tone2", chars "color:blue")], 0) ∧
    parseDecls (chars "color:blue") = [(chars "color", chars "blue")] ∧
    legacyExtract (chars ".tone1 \x7b color: red; \x7d") =
      ([(chars ".tone1", chars " color: red; ")], 0) ∧
    parseDecls (chars " color: red; ") = [(chars "color", chars "red")] := by
  refine ⟨?_, ?_, by decide, by decide, by decide, by decide⟩
  · intro body seg hcolon hsemi
    have hseg : declStep seg = [] := by
      rw [declStep, if_neg (by simp [hcolon])]
    show concatMap declStep (splitOn ';' (body ++ ';' :: seg)) =
      concatMap declStep (splitOn ';' body)
    rw [splitOn_append_sep, concatMap_append, splitOn_of_no_sep seg hsemi]
    simp [concatMap, hseg]
  · intro p v hc hs1 hs2
    have hno : hasChar ';' (p ++ ':' :: v) = false := by
      rw [hasChar_append]
      simp [hs1, hasChar, hs2]
    have hyes : hasChar ':' (p ++ ':' :: v) = true := by
      rw [hasChar_append]
      simp [hasChar]
    have hsf : splitFirst ':' (p ++ ':' :: v) = some (p, v) := by
      refine splitFirst_append p v ?_
      intro hm
      have h3 := hasChar_iff.mpr hm
      rw [hc] at h3
      cases h3
    show concatMap declStep (splitOn ';' (p ++ ':' :: v)) = [(pyStrip p, pyStrip v)]
    rw [splitOn_of_no_sep _ hno]
    simp [concatMap, declStep, hyes, hsf]

/-- C7 witness: the skip rule applied to `color:red;junk` (the second
segment has no colon and contributes nothing) and the first-colon rule
applied to `color : b:c` (the value keeps its inner colon). -/
theorem legacy_decl_decomposition_witness :
    parseDecls (chars "color:red" ++ ';' :: chars "junk") =
      parseDecls (chars "color:red") ∧
    parseDecls (chars "color " ++ ':' :: chars " b:c") =
      [(pyStrip (chars "color "), pyStrip (chars " b:c"))] :=
  ⟨legacy_decl_decomposition.1 (chars "color:red") (chars "junk")
      (by decide) (by decide),
   legacy_decl_decomposition.2.1 (chars "color ") (chars " b:c")
      (by decide) (by decide) (by decide)⟩

/-- C8: extraction is a pure total function of the stylesheet text under
both tiers: for every input it returns a (possibly empty) rule sequence,
two runs on the same text give identical results, and the one Python
destructuring in the pipeline that could raise
(`[property, value] = part.split(':', 1)`) never does, because it is
guarded by the `':' in part` test. -/
theorem extraction_total_deterministic :
    (∀ css : List Char, ∃ rules warns, modernExtract css = (rules, warns)) ∧
    (∀ css : List Char, ∃ rules warns, legacyExtract css = (rules, warns)) ∧
    (∀ css : List Char,
      modernExtract css = modernExtract css ∧ legacyExtract css = legacyExtract css) ∧
    (∀ ruledef : List Char, parseDeclsE ruledef = Except.ok (parseDecls ruledef)) := by
  refine ⟨fun css => ⟨_, _, rfl⟩, fun css => ⟨_, _, rfl⟩, fun css => ⟨rfl, rfl⟩, ?_⟩
  intro ruledef
  show List.foldlM declStepE [] (splitOn ';' ruledef) = Except.ok (parseDecls ruledef)
  rw [declsFoldAux (splitOn ';' ruledef) [], List.nil_append]
  rfl

/-- C9: each invocation of either injector evaluates exactly one generated
script, even when zero rules are extracted; with zero rules the Legacy
script has an empty per-field iteration body and the Modern script embeds
the empty rule array `[]`. -/
theorem single_dispatch_per_invocation :
    (∀ css : List Char,
      (appendToneStyling54 css).2.length = 1 ∧
      (appendToneStyling49 css).2.length = 1) ∧
    (∀ css : List Char, (modernExtract css).1 = [] →
      (appendToneStyling54 css).2 = [chars "var CSSRULES = [];" ++ modernJsTail]) ∧
    (∀ css : List Char, (legacyExtract css).1 = [] →
      (appendToneStyling49 css).2 =
        [chars "jQuery('div.field').each(function () \x7b\n\x7d)"]) := by
  refine ⟨fun css => ⟨rfl, rfl⟩, ?_, ?_⟩
  · intro css h
    show [modernJs (modernExtract css).1] = _
    rw [h]
    rfl
  · intro css h
    show [legacyJs (legacyExtract css).1] = _
    rw [h]
    rfl

/-- C9 witness: the zero-rule dispatch shapes at the stylesheet `body {}`,
which extracts no rules under either tier. -/
theorem single_dispatch_per_invocation_witness :
    (appendToneStyling54 (chars "body \x7b\x7d")).2 =
      [chars "var CSSRULES = [];" ++ modernJsTail] ∧
    (appendToneStyling49 (chars "body \x7b\x7d")).2 =
      [chars "jQuery('div.field').each(function () \x7b\n\x7d)"] :=
  ⟨single_dispatch_per_invocation.2.1 (chars "body \x7b\x7d") (by decide),
   single_dispatch_per_invocation.2.2 (chars "body \x7b\x7d") (by decide)⟩

/-- C10: under the Legacy tier every candidate line contributes at most one
parsed (selector, body) rule — the leftmost match; for the line
`.tone1{a:b} .tone2{c:d}` exactly the first rule is kept, with no
warning. -/
theorem legacy_leftmost_single_rule :
    (∀ line : List Char, ((legacyLineStep line).1).length ≤ 1) ∧
    legacyLineStep (chars ".tone1\x7ba:b\x7d .tone2\x7bc:d\x7d") =
      ([(chars ".tone1", chars "a:b")], 0) := by
  refine ⟨?_, by decide⟩
  intro line
  rw [legacyLineStep]
  by_cases h : startsWithPat tonePat line = true
  · rw [if_pos h]
    cases toneRuleSearch line <;> simp
  · rw [if_neg h]
    simp

end ChineseEdit
